import Mathlib

/-!
Verification of the `toy_problems` repository: the Inverse Distance
Weighted (IDW) estimator of the design specification (the repository's
notebook `src/mock_data_generation/03_arcpy.ipynb` states the IDW
formula in markdown only, with no executable implementation), and the
mock point / polyline generation cells of that notebook.
-/

/-- A planar (or geographic) coordinate pair, as produced by the
notebook's `arcpy.Point(x, y)` and used as the spec's Query Point. -/
abbrev Point : Type := ℝ × ℝ

/-- Modelled from the spec: a known observation, an immutable pair of a
location and a scalar value.  The repository has no executable sample
type; the notebook only writes the tuple (lat_i, lon_i, val_i) in
markdown. -/
structure Sample where
  location : Point
  value : ℝ

/-- Modelled from the spec: the single error kind of the estimator,
raised for an empty sample set or a non-positive alpha.  The repository
contains no executable error type. -/
inductive InvalidInputError where
  | invalidInput

/-- Modelled from the spec: the inverse-distance weight
`w = d ^ (-alpha)` of algorithm step 3 (real power). -/
noncomputable def idwWeight (d alpha : ℝ) : ℝ := d ^ (-alpha)

/-- Modelled from the spec: the exact-match scan of algorithm step 2
together with the numeric tie policy: the first sample in input order
whose distance to the query is zero, if any. -/
noncomputable def firstZeroSample (query : Point) (distance_fn : Point → Point → ℝ) :
    List Sample → Option Sample
  | [] => none
  | s :: rest =>
    if distance_fn query s.location = 0 then some s
    else firstZeroSample query distance_fn rest

/-- Modelled from the spec: the denominator of step 4, the sum of the
inverse-distance weights over all samples. -/
noncomputable def weightSum (query : Point) (samples : List Sample) (alpha : ℝ)
    (distance_fn : Point → Point → ℝ) : ℝ :=
  (samples.map (fun s => idwWeight (distance_fn query s.location) alpha)).sum

/-- Modelled from the spec: the numerator of step 4, the sum of each
sample's value times its inverse-distance weight. -/
noncomputable def weightedValueSum (query : Point) (samples : List Sample) (alpha : ℝ)
    (distance_fn : Point → Point → ℝ) : ℝ :=
  (samples.map (fun s => s.value * idwWeight (distance_fn query s.location) alpha)).sum

/-- Modelled from the spec: the IDW estimator of section 4.1.  Fails with
`InvalidInputError` on an empty sample sequence or a non-positive alpha;
returns the first sample at distance zero from the query when one
exists; otherwise returns the weighted mean of the sample values with
weights `d ^ (-alpha)`.  The repository has no executable `estimate`;
the notebook gives only the closing markdown formula. -/
noncomputable def estimate (query : Point) (samples : List Sample) (alpha : ℝ)
    (distance_fn : Point → Point → ℝ) : Except InvalidInputError ℝ :=
  match samples with
  | [] => .error .invalidInput
  | s :: rest =>
    if alpha ≤ 0 then .error .invalidInput
    else
      match firstZeroSample query distance_fn (s :: rest) with
      | some t => .ok t.value
      | none =>
        .ok (weightedValueSum query (s :: rest) alpha distance_fn /
             weightSum query (s :: rest) alpha distance_fn)

/-- Euclidean distance on the plane, the metric named by the spec's
concrete scenario. -/
noncomputable def euclidean (p q : Point) : ℝ :=
  Real.sqrt ((p.1 - q.1) ^ 2 + (p.2 - q.2) ^ 2)

/-- The discrete metric: zero between identical points, one otherwise.
A valid distance metric in the sense of the spec, used for concrete
instances. -/
noncomputable def discreteDist (p q : Point) : ℝ :=
  if p = q then 0 else 1

/-- Two samples sharing one location (0,0) but carrying distinct values
1 and 2: the duplicate-location configuration the spec's numeric policy
discusses. -/
def dupSamples : List Sample :=
  [⟨(0, 0), 1⟩, ⟨(0, 0), 2⟩]

/-- Two samples at the same location (0,0) with values 1 and 2, used for
the zero-distance tie instance. -/
def tieSamples : List Sample :=
  [⟨(0, 0), 1⟩, ⟨(0, 0), 2⟩]

namespace MockPoints

/-- The notebook's point cell: `x = [-94 + np.random.uniform(-1, 1) for
i in range(25)]`, with the 25 uniform draws abstracted as `u`. -/
noncomputable def x (u : Fin 25 → ℝ) : List ℝ :=
  (List.finRange 25).map (fun i => -94 + u i)

/-- The notebook's point cell: `y = [45 + np.random.uniform(-1, 1) for
i in range(25)]`, with the 25 uniform draws abstracted as `v`. -/
noncomputable def y (v : Fin 25 → ℝ) : List ℝ :=
  (List.finRange 25).map (fun i => 45 + v i)

/-- The notebook's point cell: `records = list(zip(x, y))`. -/
noncomputable def records (u v : Fin 25 → ℝ) : List (ℝ × ℝ) :=
  (x u).zip (y v)

end MockPoints

namespace MockLines

/-- A polyline as constructed by `arcpy.Polyline(feature_array, 4326)`:
its vertex array and the spatial-reference id. -/
structure Polyline where
  array : List Point
  wkid : ℕ

/-- The line cell's `x = [-94 + np.random.uniform(-0.25, 0.25) for i in
range(number_points)]`, draws abstracted as `u`. -/
noncomputable def x (number_points : ℕ) (u : ℕ → ℝ) : List ℝ :=
  (List.range number_points).map (fun i => -94 + u i)

/-- The line cell's `y = [45 + np.random.uniform(-0.25, 0.25) for i in
range(number_points)]`, draws abstracted as `u`. -/
noncomputable def y (number_points : ℕ) (u : ℕ → ℝ) : List ℝ :=
  (List.range number_points).map (fun i => 45 + u i)

/-- The line cell's `vertices = [arcpy.Point(x[i], y[i]) for i in
range(number_points)]` (list indexing modelled with a default of 0,
never reached since `i` ranges over the common length). -/
noncomputable def vertices (number_points : ℕ) (ux uy : ℕ → ℝ) : List Point :=
  (List.range number_points).map
    (fun i => ((x number_points ux).getD i 0, (y number_points uy).getD i 0))

/-- The line cell's loop: five polylines, the i-th built from
`number_points = n i` vertices and inserted with spatial reference
4326.  The per-iteration `np.random.randint(3, 7)` results are
abstracted as `n`, the uniform draws as `ux`, `uy`. -/
noncomputable def list_of_lines (n : Fin 5 → ℕ) (ux uy : Fin 5 → ℕ → ℝ) : List Polyline :=
  (List.finRange 5).map (fun i => Polyline.mk (vertices (n i) (ux i) (uy i)) 4326)

end MockLines

/-- The scan of step 2 finds nothing exactly when no sample sits at
distance zero from the query. -/
theorem firstZeroSample_eq_none_iff (query : Point) (distance_fn : Point → Point → ℝ)
    (l : List Sample) :
    firstZeroSample query distance_fn l = none ↔
      ∀ s ∈ l, distance_fn query s.location ≠ 0 := by
  induction l with
  | nil => simp [firstZeroSample]
  | cons s rest ih =>
    by_cases h : distance_fn query s.location = 0 <;>
      simp [firstZeroSample, h, ih]

/-- Whatever the scan of step 2 returns is a sample of the input list
sitting at distance zero from the query. -/
theorem firstZeroSample_some (query : Point) (distance_fn : Point → Point → ℝ)
    (l : List Sample) (s : Sample) (h : firstZeroSample query distance_fn l = some s) :
    s ∈ l ∧ distance_fn query s.location = 0 := by
  induction l with
  | nil => simp [firstZeroSample] at h
  | cons t rest ih =>
    by_cases ht : distance_fn query t.location = 0
    · simp only [firstZeroSample, if_pos ht, Option.some.injEq] at h
      subst h
      exact ⟨List.mem_cons_self t rest, ht⟩
    · simp only [firstZeroSample, if_neg ht] at h
      obtain ⟨h1, h2⟩ := ih h
      exact ⟨List.mem_cons_of_mem t h1, h2⟩

/-- On a non-empty sample list with a positive alpha, the estimator
reduces to the zero-distance scan followed by the weighted mean. -/
theorem estimate_valid (query : Point) (s : Sample) (rest : List Sample) (alpha : ℝ)
    (distance_fn : Point → Point → ℝ) (halpha : 0 < alpha) :
    estimate query (s :: rest) alpha distance_fn =
      match firstZeroSample query distance_fn (s :: rest) with
      | some t => .ok t.value
      | none =>
        .ok (weightedValueSum query (s :: rest) alpha distance_fn /
             weightSum query (s :: rest) alpha distance_fn) := by
  simp only [estimate, if_neg (not_le.mpr halpha)]

/-- With strictly positive distances the weight sum is strictly
positive. -/
theorem weightSum_pos (query : Point) (samples : List Sample) (alpha : ℝ)
    (distance_fn : Point → Point → ℝ) (hne : samples ≠ [])
    (hpos : ∀ s ∈ samples, 0 < distance_fn query s.location) :
    0 < weightSum query samples alpha distance_fn := by
  apply List.sum_pos
  · intro w hw
    obtain ⟨s, hs, rfl⟩ := List.mem_map.mp hw
    exact Real.rpow_pos_of_pos (hpos s hs) _
  · simpa using hne

/-- A common lower bound of the sample values, scaled by the weight sum,
bounds the weighted value sum from below. -/
theorem le_weightedValueSum (query : Point) (samples : List Sample) (alpha m : ℝ)
    (distance_fn : Point → Point → ℝ)
    (hpos : ∀ s ∈ samples, 0 < distance_fn query s.location)
    (hm : ∀ s ∈ samples, m ≤ s.value) :
    m * weightSum query samples alpha distance_fn ≤
      weightedValueSum query samples alpha distance_fn := by
  unfold weightedValueSum weightSum
  rw [← List.sum_map_mul_left]
  apply List.sum_le_sum
  intro s hs
  exact mul_le_mul_of_nonneg_right (hm s hs)
    (Real.rpow_pos_of_pos (hpos s hs) _).le

/-- A common upper bound of the sample values, scaled by the weight sum,
bounds the weighted value sum from above. -/
theorem weightedValueSum_le (query : Point) (samples : List Sample) (alpha M : ℝ)
    (distance_fn : Point → Point → ℝ)
    (hpos : ∀ s ∈ samples, 0 < distance_fn query s.location)
    (hM : ∀ s ∈ samples, s.value ≤ M) :
    weightedValueSum query samples alpha distance_fn ≤
      M * weightSum query samples alpha distance_fn := by
  unfold weightedValueSum weightSum
  rw [← List.sum_map_mul_left]
  apply List.sum_le_sum
  intro s hs
  exact mul_le_mul_of_nonneg_right (hM s hs)
    (Real.rpow_pos_of_pos (hpos s hs) _).le

/-- The scan of step 2 returns the entry at the first index whose
distance to the query is zero. -/
theorem firstZeroSample_eq_get (query : Point) (distance_fn : Point → Point → ℝ)
    (l : List Sample) :
    ∀ (k : ℕ) (hk : k < l.length),
      distance_fn query (l.get ⟨k, hk⟩).location = 0 →
      (∀ j (hj : j < k), distance_fn query (l.get ⟨j, hj.trans hk⟩).location ≠ 0) →
      firstZeroSample query distance_fn l = some (l.get ⟨k, hk⟩) := by
  induction l with
  | nil => intro k hk; simp at hk
  | cons s rest ih =>
    intro k hk h0 hfirst
    cases k with
    | zero =>
      simp only [List.get] at h0 ⊢
      simp [firstZeroSample, h0]
    | succ k' =>
      have hsne : distance_fn query s.location ≠ 0 := by
        have h := hfirst 0 (Nat.succ_pos k')
        simpa using h
      have hk' : k' < rest.length := Nat.lt_of_succ_lt_succ hk
      have hrec := ih k' hk' (by simpa using h0)
        (fun j hj => by simpa using hfirst (j + 1) (Nat.succ_lt_succ hj))
      simp only [firstZeroSample, if_neg hsne, hrec, List.get_cons_succ]

/-- In a sample list whose locations are pairwise distinct, under a
metric vanishing exactly on equal points, the step-2 scan started from a
member's own location finds exactly that member. -/
theorem firstZeroSample_of_pairwise (distance_fn : Point → Point → ℝ)
    (hmetric : ∀ p q : Point, distance_fn p q = 0 ↔ p = q)
    (l : List Sample) (s : Sample) (hs : s ∈ l)
    (hdistinct : l.Pairwise (fun a b => a.location ≠ b.location)) :
    firstZeroSample s.location distance_fn l = some s := by
  induction l with
  | nil => cases hs
  | cons t rest ih =>
    rcases List.mem_cons.mp hs with rfl | hmem
    · have h0 : distance_fn s.location s.location = 0 := (hmetric _ _).mpr rfl
      simp [firstZeroSample, h0]
    · have hne : t.location ≠ s.location :=
        (List.pairwise_cons.mp hdistinct).1 s hmem
      have hd : distance_fn s.location t.location ≠ 0 :=
        fun h => hne ((hmetric _ _).mp h).symm
      simp only [firstZeroSample, if_neg hd]
      exact ih hmem (List.pairwise_cons.mp hdistinct).2

/-- The closer sample's share of the two-sample weight mass, rewritten
through the distance ratio. -/
theorem idw_share_eq (dc df a : ℝ) (hdc : 0 < dc) (hdf : 0 < df) :
    idwWeight dc a / (idwWeight dc a + idwWeight df a) = 1 / (1 + (dc / df) ^ a) := by
  unfold idwWeight
  rw [Real.rpow_neg hdc.le, Real.rpow_neg hdf.le, Real.div_rpow hdc.le hdf.le]
  have h1 : (0:ℝ) < dc ^ a := Real.rpow_pos_of_pos hdc a
  have h2 : (0:ℝ) < df ^ a := Real.rpow_pos_of_pos hdf a
  have hsum : (dc ^ a)⁻¹ + (df ^ a)⁻¹ ≠ 0 := by positivity
  field_simp

/-- C1: for a non-empty sample sequence, a strictly positive alpha, and
a distance function giving every sample a strictly positive distance to
the query, the estimator returns the standard IDW weighted mean: the sum
of value times distance to the power minus alpha, divided by the sum of
distance to the power minus alpha. -/
theorem estimate_idw_formula (query : Point) (samples : List Sample) (alpha : ℝ)
    (distance_fn : Point → Point → ℝ) (hne : samples ≠ []) (halpha : 0 < alpha)
    (hpos : ∀ s ∈ samples, 0 < distance_fn query s.location) :
    estimate query samples alpha distance_fn =
      .ok ((samples.map
              (fun s => s.value * distance_fn query s.location ^ (-alpha))).sum /
           (samples.map (fun s => distance_fn query s.location ^ (-alpha))).sum) := by
  obtain ⟨s, rest, rfl⟩ := List.exists_cons_of_ne_nil hne
  rw [estimate_valid query s rest alpha distance_fn halpha]
  have hnone : firstZeroSample query distance_fn (s :: rest) = none :=
    (firstZeroSample_eq_none_iff _ _ _).mpr (fun t ht => (hpos t ht).ne')
  rw [hnone]
  rfl

/-- Witness for C1 at a concrete input: one sample of value 3 at
distance 2 from the query, alpha 1. -/
theorem estimate_idw_formula_witness :
    estimate (1, 0) [⟨(0, 0), 3⟩] 1 (fun _ _ => 2) =
      .ok ((([⟨(0, 0), 3⟩] : List Sample).map
              (fun s => s.value * (fun _ _ : Point => (2:ℝ)) (1, 0) s.location ^ (-(1:ℝ)))).sum /
           (([⟨(0, 0), 3⟩] : List Sample).map
              (fun s => (fun _ _ : Point => (2:ℝ)) (1, 0) s.location ^ (-(1:ℝ)))).sum) :=
  estimate_idw_formula (1, 0) [⟨(0, 0), 3⟩] 1 (fun _ _ => 2) (by simp) one_pos
    (fun s _ => by norm_num)

/-- C3: the estimator fails exactly on an empty sample sequence or a
non-positive alpha, and on valid inputs it succeeds with a value. -/
theorem estimate_error_characterisation (query : Point) (samples : List Sample)
    (alpha : ℝ) (distance_fn : Point → Point → ℝ) :
    ((∃ e, estimate query samples alpha distance_fn = .error e) ↔
        samples = [] ∨ alpha ≤ 0) ∧
    (samples ≠ [] → 0 < alpha →
      ∃ v, estimate query samples alpha distance_fn = .ok v) := by
  cases samples with
  | nil =>
    refine ⟨⟨fun _ => Or.inl rfl, fun _ => ⟨.invalidInput, rfl⟩⟩, ?_⟩
    intro h
    exact absurd rfl h
  | cons s rest =>
    by_cases ha : alpha ≤ 0
    · refine ⟨⟨fun _ => Or.inr ha, fun _ => ⟨.invalidInput, ?_⟩⟩, ?_⟩
      · simp [estimate, ha]
      · intro _ h0
        exact absurd ha h0.not_le
    · have key : ∃ v, estimate query (s :: rest) alpha distance_fn = .ok v := by
        rcases hfz : firstZeroSample query distance_fn (s :: rest) with _ | t
        · exact ⟨_, by rw [estimate_valid query s rest alpha distance_fn
            (lt_of_not_le ha), hfz]⟩
        · exact ⟨t.value, by rw [estimate_valid query s rest alpha distance_fn
            (lt_of_not_le ha), hfz]⟩
      obtain ⟨v, hv⟩ := key
      refine ⟨⟨?_, ?_⟩, fun _ _ => ⟨v, hv⟩⟩
      · rintro ⟨e, he⟩
        rw [hv] at he
        cases he
      · rintro (h | h)
        · exact absurd h (List.cons_ne_nil s rest)
        · exact absurd h ha

/-- Witness for C3 at a concrete input: a singleton sample list and
alpha 1. -/
theorem estimate_error_characterisation_witness :
    ((∃ e, estimate (1, 0) [⟨(0, 0), 3⟩] 1 (fun _ _ => 2) = .error e) ↔
        ([⟨(0, 0), 3⟩] : List Sample) = [] ∨ (1:ℝ) ≤ 0) ∧
    (([⟨(0, 0), 3⟩] : List Sample) ≠ [] → (0:ℝ) < 1 →
      ∃ v, estimate (1, 0) [⟨(0, 0), 3⟩] 1 (fun _ _ => 2) = .ok v) :=
  estimate_error_characterisation (1, 0) [⟨(0, 0), 3⟩] 1 (fun _ _ => 2)

/-- C5: with exactly one sample, a positive alpha and a non-negative
distance, the estimator returns that sample's value, whatever the query
location: at distance zero through the short-circuit, otherwise because
the single weight cancels. -/
theorem estimate_single (query : Point) (s : Sample) (alpha : ℝ)
    (distance_fn : Point → Point → ℝ) (halpha : 0 < alpha)
    (hnn : 0 ≤ distance_fn query s.location) :
    estimate query [s] alpha distance_fn = .ok s.value := by
  rw [estimate_valid query s [] alpha distance_fn halpha]
  by_cases hd : distance_fn query s.location = 0
  · simp [firstZeroSample, hd]
  · have hw : 0 < idwWeight (distance_fn query s.location) alpha :=
      Real.rpow_pos_of_pos (lt_of_le_of_ne hnn (Ne.symm hd)) _
    simp [firstZeroSample, hd, weightedValueSum, weightSum,
      mul_div_assoc, div_self hw.ne']

/-- Witness for C5 at a concrete input: one sample of value 3 at
distance 2 from the query, alpha 2. -/
theorem estimate_single_witness :
    estimate (1, 1) [⟨(0, 0), 3⟩] 2 (fun _ _ => 2) = .ok ((⟨(0, 0), 3⟩ : Sample).value) :=
  estimate_single (1, 1) ⟨(0, 0), 3⟩ 2 (fun _ _ => 2) (by norm_num) (by norm_num)

/-- C2 counterexample: with two samples sharing the location (0,0) but
carrying values 1 and 2, under the discrete metric and alpha 1, querying
at the shared location returns the first sample's value 1, so the
second sample s has estimate at s.location different from s.value. -/
theorem estimate_exact_match_cex :
    (⟨(0, 0), 2⟩ : Sample) ∈ dupSamples ∧
      estimate (0, 0) dupSamples 1 discreteDist ≠ .ok (2 : ℝ) := by
  constructor
  · simp [dupSamples]
  · have h : estimate (0, 0) dupSamples 1 discreteDist = .ok (1 : ℝ) := by
      rw [show dupSamples = ⟨(0, 0), 1⟩ :: [⟨(0, 0), 2⟩] from rfl,
        estimate_valid _ _ _ _ _ one_pos]
      simp [firstZeroSample, discreteDist]
    rw [h]
    simp only [ne_eq, Except.ok.injEq]
    norm_num

/-- C2 amended: in a sample sequence whose locations are pairwise
distinct, under a valid metric (distance zero exactly on equal points)
and a positive alpha, querying at a sample's own location returns that
sample's value exactly; the zero-distance short-circuit fires and no
division by zero occurs. -/
theorem estimate_exact_match (samples : List Sample) (s : Sample) (alpha : ℝ)
    (distance_fn : Point → Point → ℝ) (hs : s ∈ samples) (halpha : 0 < alpha)
    (hmetric : ∀ p q : Point, distance_fn p q = 0 ↔ p = q)
    (hdistinct : samples.Pairwise (fun a b => a.location ≠ b.location)) :
    estimate s.location samples alpha distance_fn = .ok s.value := by
  obtain ⟨t, rest, rfl⟩ := List.exists_cons_of_ne_nil (List.ne_nil_of_mem hs)
  rw [estimate_valid _ _ _ _ _ halpha,
    firstZeroSample_of_pairwise distance_fn hmetric _ s hs hdistinct]

/-- Witness for the amended C2 at a concrete input: a single sample of
value 5 at (0,0) under the discrete metric. -/
theorem estimate_exact_match_witness :
    estimate ((0, 0) : Point) [⟨(0, 0), 5⟩] 1 discreteDist = .ok (5 : ℝ) :=
  estimate_exact_match [⟨(0, 0), 5⟩] ⟨(0, 0), 5⟩ 1 discreteDist
    (by simp) one_pos
    (fun p q => by by_cases h : p = q <;> simp [discreteDist, h])
    (by simp)

/-- C4: on a non-empty sample sequence, with positive alpha and a
distance function returning non-negative reals, the estimator succeeds
and its value lies between the minimum and the maximum of the sample
values. -/
theorem estimate_convex (query : Point) (samples : List Sample) (alpha : ℝ)
    (distance_fn : Point → Point → ℝ) (hne : samples ≠ []) (halpha : 0 < alpha)
    (hnn : ∀ s ∈ samples, 0 ≤ distance_fn query s.location) :
    ∃ v, estimate query samples alpha distance_fn = .ok v ∧
      (samples.map Sample.value).minimum ≤ (v : WithTop ℝ) ∧
      (v : WithBot ℝ) ≤ (samples.map Sample.value).maximum := by
  obtain ⟨s0, rest, rfl⟩ := List.exists_cons_of_ne_nil hne
  rw [estimate_valid _ _ _ _ _ halpha]
  rcases hfz : firstZeroSample query distance_fn (s0 :: rest) with _ | t
  · have hpos : ∀ s ∈ s0 :: rest, 0 < distance_fn query s.location := by
      intro s hsm
      exact lt_of_le_of_ne (hnn s hsm)
        (Ne.symm (((firstZeroSample_eq_none_iff _ _ _).mp hfz) s hsm))
    have hws : 0 < weightSum query (s0 :: rest) alpha distance_fn :=
      weightSum_pos query (s0 :: rest) alpha distance_fn (List.cons_ne_nil s0 rest) hpos
    have hlen : 0 < ((s0 :: rest).map Sample.value).length := by simp
    set m := ((s0 :: rest).map Sample.value).minimum_of_length_pos hlen with hm
    set M := ((s0 :: rest).map Sample.value).maximum_of_length_pos hlen with hM
    have hmlb : ∀ s ∈ s0 :: rest, m ≤ s.value := fun s hsm =>
      List.minimum_of_length_pos_le_of_mem (List.mem_map_of_mem Sample.value hsm) hlen
    have hMub : ∀ s ∈ s0 :: rest, s.value ≤ M := fun s hsm =>
      List.le_maximum_of_length_pos_of_mem (List.mem_map_of_mem Sample.value hsm) hlen
    refine ⟨_, rfl, ?_, ?_⟩
    · rw [List.minimum_le_coe_iff]
      refine ⟨m, List.minimum_of_length_pos_mem hlen, ?_⟩
      rw [le_div_iff₀ hws]
      exact le_weightedValueSum query (s0 :: rest) alpha m distance_fn hpos hmlb
    · rw [List.coe_le_maximum_iff]
      refine ⟨M, List.maximum_of_length_pos_mem hlen, ?_⟩
      rw [div_le_iff₀ hws]
      exact weightedValueSum_le query (s0 :: rest) alpha M distance_fn hpos hMub
  · obtain ⟨htm, -⟩ := firstZeroSample_some query distance_fn (s0 :: rest) t hfz
    exact ⟨t.value, rfl,
      List.minimum_le_of_mem' (List.mem_map_of_mem Sample.value htm),
      List.le_maximum_of_mem' (List.mem_map_of_mem Sample.value htm)⟩

/-- Witness for C4 at a concrete input: two samples of values 10 and 20
both at distance 1 from the query, alpha 1. -/
theorem estimate_convex_witness :
    ∃ v, estimate (1, 0) [⟨(0, 0), 10⟩, ⟨(2, 0), 20⟩] 1 (fun _ _ => 1) = .ok v ∧
      (([⟨(0, 0), 10⟩, ⟨(2, 0), 20⟩] : List Sample).map Sample.value).minimum ≤
        (v : WithTop ℝ) ∧
      (v : WithBot ℝ) ≤
        (([⟨(0, 0), 10⟩, ⟨(2, 0), 20⟩] : List Sample).map Sample.value).maximum :=
  estimate_convex (1, 0) [⟨(0, 0), 10⟩, ⟨(2, 0), 20⟩] 1 (fun _ _ => 1)
    (by simp) one_pos (fun s _ => by norm_num)

/-- C6: on the spec's concrete scenario — samples of value 10 at (0,0)
and 20 at (10,0), query (5,0), Euclidean distance, alpha 2 — both
weights are 1/25 and the estimate is exactly 15. -/
theorem estimate_concrete_scenario :
    estimate (5, 0) [⟨(0, 0), 10⟩, ⟨(10, 0), 20⟩] 2 euclidean = .ok 15 := by
  have hd1 : euclidean (5, 0) (0, 0) = 5 := by
    show Real.sqrt (((5:ℝ) - 0) ^ 2 + ((0:ℝ) - 0) ^ 2) = 5
    rw [show ((5:ℝ) - 0) ^ 2 + ((0:ℝ) - 0) ^ 2 = 5 ^ 2 by norm_num]
    exact Real.sqrt_sq (by norm_num)
  have hd2 : euclidean (5, 0) (10, 0) = 5 := by
    show Real.sqrt (((5:ℝ) - 10) ^ 2 + ((0:ℝ) - 0) ^ 2) = 5
    rw [show ((5:ℝ) - 10) ^ 2 + ((0:ℝ) - 0) ^ 2 = 5 ^ 2 by norm_num]
    exact Real.sqrt_sq (by norm_num)
  have hrp : (5:ℝ) ^ (-(2:ℝ)) = 1 / 25 := by
    rw [show (-(2:ℝ)) = ((-2 : ℤ) : ℝ) by norm_num, Real.rpow_intCast]
    norm_num
  rw [estimate_valid _ _ _ _ _ (by norm_num : (0:ℝ) < 2)]
  have hnone : firstZeroSample (5, 0) euclidean [⟨(0, 0), 10⟩, ⟨(10, 0), 20⟩] = none := by
    simp only [firstZeroSample, hd1, hd2]
    norm_num
  rw [hnone]
  show Except.ok (weightedValueSum (5, 0) [⟨(0, 0), 10⟩, ⟨(10, 0), 20⟩] 2 euclidean /
    weightSum (5, 0) [⟨(0, 0), 10⟩, ⟨(10, 0), 20⟩] 2 euclidean) = Except.ok 15
  rw [weightedValueSum, weightSum]
  simp only [List.map_cons, List.map_nil, List.sum_cons, List.sum_nil, idwWeight, hd1, hd2, hrp]
  norm_num

/-- C7: with two equal-valued samples, the closer one at positive
distance dc and the farther at df, raising the exponent from a1 to a2
strictly increases the closer sample's share of the total weight mass. -/
theorem idw_share_strict_mono (dc df a1 a2 : ℝ) (hdc : 0 < dc) (hlt : dc < df)
    (ha1 : 0 < a1) (ha : a1 < a2) :
    idwWeight dc a1 / (idwWeight dc a1 + idwWeight df a1) <
      idwWeight dc a2 / (idwWeight dc a2 + idwWeight df a2) := by
  have hdf : 0 < df := hdc.trans hlt
  rw [idw_share_eq dc df a1 hdc hdf, idw_share_eq dc df a2 hdc hdf]
  have hr0 : 0 < dc / df := div_pos hdc hdf
  have hr1 : dc / df < 1 := (div_lt_one hdf).mpr hlt
  have hkey : (dc / df) ^ a2 < (dc / df) ^ a1 :=
    Real.rpow_lt_rpow_of_exponent_gt hr0 hr1 ha
  have hp2 : (0:ℝ) < (dc / df) ^ a2 := Real.rpow_pos_of_pos hr0 _
  exact one_div_lt_one_div_of_lt (by linarith) (by linarith)

/-- Witness for C7 at a concrete input: distances 1 and 2, exponents 1
and 2. -/
theorem idw_share_strict_mono_witness :
    idwWeight 1 1 / (idwWeight 1 1 + idwWeight 2 1) <
      idwWeight 1 2 / (idwWeight 1 2 + idwWeight 2 2) :=
  idw_share_strict_mono 1 2 1 2 (by norm_num) (by norm_num) (by norm_num) (by norm_num)

/-- C8: when two samples (indices k and m, k earlier) lie at distance
zero from the query and no index before k does, the estimator returns
the value of the sample at index k — ties at distance zero are resolved
by input order, never averaged. -/
theorem estimate_tie_first (query : Point) (samples : List Sample) (alpha : ℝ)
    (distance_fn : Point → Point → ℝ) (k m : ℕ) (hk : k < samples.length)
    (hm : m < samples.length) (hkm : k < m) (halpha : 0 < alpha)
    (hdk : distance_fn query (samples.get ⟨k, hk⟩).location = 0)
    (hdm : distance_fn query (samples.get ⟨m, hm⟩).location = 0)
    (hfirst : ∀ j (hj : j < k),
      distance_fn query (samples.get ⟨j, hj.trans hk⟩).location ≠ 0) :
    estimate query samples alpha distance_fn = .ok (samples.get ⟨k, hk⟩).value := by
  have hne : samples ≠ [] := List.length_pos.mp (Nat.zero_lt_of_lt hk)
  obtain ⟨s, rest, rfl⟩ := List.exists_cons_of_ne_nil hne
  rw [estimate_valid _ _ _ _ _ halpha,
    firstZeroSample_eq_get query distance_fn (s :: rest) k hk hdk hfirst]

/-- Witness for C8 at a concrete input: two samples at the query point
with values 1 and 2 under the everywhere-zero distance function; the
first is returned. -/
theorem estimate_tie_first_witness :
    estimate (0, 0) tieSamples 1 (fun _ _ => 0) = .ok (1 : ℝ) := by
  have h := estimate_tie_first (0, 0) tieSamples 1 (fun _ _ => 0) 0 1
    (by simp [tieSamples]) (by simp [tieSamples]) Nat.zero_lt_one one_pos
    rfl rfl (fun j hj => absurd hj (Nat.not_lt_zero j))
  simpa [tieSamples] using h

/-- C9: if every uniform draw lies in the closed interval from -1 to 1,
the 25 generated records all have first coordinate between -95 and -93
and second coordinate between 44 and 46, within one degree of the
center (-94, 45). -/
theorem MockPoints.records_in_bounds (u v : Fin 25 → ℝ)
    (hu : ∀ i, -1 ≤ u i ∧ u i ≤ 1) (hv : ∀ i, -1 ≤ v i ∧ v i ≤ 1) :
    (records u v).length = 25 ∧
      ∀ p ∈ records u v, -95 ≤ p.1 ∧ p.1 ≤ -93 ∧ 44 ≤ p.2 ∧ p.2 ≤ 46 := by
  constructor
  · simp [records, x, y]
  · rintro ⟨a, b⟩ hp
    obtain ⟨ha, hb⟩ := List.of_mem_zip hp
    obtain ⟨i, -, rfl⟩ := List.mem_map.mp ha
    obtain ⟨j, -, rfl⟩ := List.mem_map.mp hb
    obtain ⟨h1, h2⟩ := hu i
    obtain ⟨h3, h4⟩ := hv j
    refine ⟨?_, ?_, ?_, ?_⟩ <;> dsimp only <;> linarith

/-- Witness for C9 at a concrete input: all draws equal to zero; the
first record is (-94 + 0, 45 + 0) and satisfies the bounds. -/
theorem MockPoints.records_in_bounds_witness :
    -95 ≤ ((-94:ℝ) + 0) ∧ ((-94:ℝ) + 0) ≤ -93 ∧
      (44:ℝ) ≤ 45 + 0 ∧ (45:ℝ) + 0 ≤ 46 :=
  (records_in_bounds (fun _ => 0) (fun _ => 0)
      (fun _ => by norm_num) (fun _ => by norm_num)).2
    (-94 + 0, 45 + 0)
    (by unfold records x y
        rw [List.zip_map']
        exact List.mem_map_of_mem _ (List.mem_finRange 0))

/-- C10: if every randomly drawn vertex count lies between 3 and 6 (the
upper bound 7 of randint being exclusive), every polyline in
list_of_lines is built from an array of at least 3 and at most 6
vertices. -/
theorem MockLines.list_of_lines_vertex_count (n : Fin 5 → ℕ) (ux uy : Fin 5 → ℕ → ℝ)
    (hn : ∀ i, 3 ≤ n i ∧ n i ≤ 6) :
    ∀ pl ∈ list_of_lines n ux uy, 3 ≤ pl.array.length ∧ pl.array.length ≤ 6 := by
  intro pl hpl
  obtain ⟨i, -, rfl⟩ := List.mem_map.mp hpl
  show 3 ≤ (vertices (n i) (ux i) (uy i)).length ∧
    (vertices (n i) (ux i) (uy i)).length ≤ 6
  have hlen : (vertices (n i) (ux i) (uy i)).length = n i := by
    simp [vertices]
  rw [hlen]
  exact hn i

/-- Witness for C10 at a concrete input: every vertex count equal to 3,
all draws zero; the resulting array has 3 vertices. -/
theorem MockLines.list_of_lines_vertex_count_witness :
    3 ≤ (MockLines.vertices 3 (fun _ => 0) (fun _ => 0)).length ∧
      (MockLines.vertices 3 (fun _ => 0) (fun _ => 0)).length ≤ 6 :=
  list_of_lines_vertex_count (fun _ => 3) (fun _ _ => 0) (fun _ _ => 0)
    (fun _ => by norm_num)
    (Polyline.mk (vertices 3 (fun _ => 0) (fun _ => 0)) 4326)
    (List.mem_map_of_mem _ (List.mem_finRange 0))
